import Mathlib

/-
Verification of the symbolic-object core of pyglove
(src/pyglove/core/symbolic/object.py), as a shallow embedding.

The embedding translates `Object.__init__`, `Object.from_json`,
`Object.partial`, `Object.sym_jsonify`, `Object.sym_eq`, `Object.sym_hash`,
`Object.sym_hasattr`, `Object.sym_setparent`, `Object.__setattr__`,
`Object._sym_rebind`, `Object.__eq__`, `Object.__hash__`, and
`Object.__init_subclass__` into Lean functions over an explicit value tree.
Collaborator code that the repository snapshot does not include under src/
(pg_typing, schema_utils, pyglove.core.symbolic.base, pyglove.core.symbolic.dict)
is modelled from the natural-language spec; each such definition carries a
doc comment starting with "Modelled from the spec:".
-/

/-! ## Values

A `Value` is the universe of data a symbolic field can hold: JSON primitives,
lists, plain dicts, nested symbolic objects (a class name plus an attribute
store), non-serializable callables, and the MISSING_VALUE marker used by
partial objects.  `VList` and `VEntries` are the spine types for nested lists
and ordered key/value stores (mutual inductives, since Lean 4.14 structural
recursion needs them explicit). -/

mutual
inductive Value where
  | vNone
  | vBool (b : Bool)
  | vInt (i : Int)
  | vStr (s : String)
  | vList (xs : VList)
  | vDict (es : VEntries)
  | vObj (clsName : String) (attrs : VEntries)
  | vCallable (id : Nat)
  | vMissing
deriving DecidableEq, Repr

inductive VList where
  | nil
  | cons (v : Value) (tl : VList)
deriving DecidableEq, Repr

inductive VEntries where
  | nil
  | cons (k : String) (v : Value) (tl : VEntries)
deriving DecidableEq, Repr
end

def VList.ofList : List Value → VList
  | [] => .nil
  | v :: tl => .cons v (VList.ofList tl)

def VEntries.ofList : List (String × Value) → VEntries
  | [] => .nil
  | (k, v) :: tl => .cons k v (VEntries.ofList tl)

def VEntries.toList : VEntries → List (String × Value)
  | .nil => []
  | .cons k v tl => (k, v) :: tl.toList

/-- First-match lookup, as a Python dict read. -/
def VEntries.lookup : VEntries → String → Option Value
  | .nil, _ => none
  | .cons k v tl, key => if k = key then some v else tl.lookup key

def VEntries.keys (es : VEntries) : List String := es.toList.map Prod.fst

def VEntries.hasKey (es : VEntries) (k : String) : Bool := (es.lookup k).isSome

def VEntries.append : VEntries → VEntries → VEntries
  | .nil, b => b
  | .cons k v tl, b => .cons k v (tl.append b)

/-- Removes the first entry under `key`, as `dict.pop` on a dict whose keys
are unique. -/
def VEntries.removeKey : VEntries → String → VEntries
  | .nil, _ => .nil
  | .cons k v tl, key => if k = key then tl else .cons k v (tl.removeKey key)

/-- Replaces the value under `key` (first occurrence), appending when absent:
a plain keyed store write. -/
def VEntries.setKey : VEntries → String → Value → VEntries
  | .nil, key, value => .cons key value .nil
  | .cons k v tl, key, value =>
      if k = key then .cons key value tl else .cons k v (tl.setKey key value)

/-- First-match lookup in an association list of field arguments. -/
def lookupArg : List (String × Value) → String → Option Value
  | [], _ => none
  | (k, v) :: tl, key => if k = key then some v else lookupArg tl key

/-- The test `name.startswith(c)` of the source for a one-character prefix,
written over the character list so that it evaluates by kernel reduction. -/
def startsWithChar (s : String) (c : Char) : Bool :=
  match s.data with
  | [] => false
  | c0 :: _ => c0 == c

/-- The slice `name[1:]` of the source — the string without its first
character. -/
def dropFirstChar (s : String) : String :=
  match s.data with
  | [] => ""
  | _ :: tl => ⟨tl⟩

/-! ## Schema, fields and classes

Modelled from the spec where pg_typing is not under src/: a PgField binds a key
(a constant string, or a pattern matching a family of dynamic string keys) to
a value specification; here the value specification is reduced to what the
claims exercise: whether the field carries a default, and the default value.
A Schema is the ordered field list plus the computed constructor argument
list (metadata key `init_arg_list`, a trailing entry starting with `*` being
the variadic field). -/

inductive FieldKey where
  | const (s : String)
  | anyKey
deriving DecidableEq, Repr

structure PgField where
  key : FieldKey
  hasDefault : Bool
  defaultValue : Value
deriving DecidableEq, Repr

structure Schema where
  fields : List PgField
  initArgList : List String
deriving DecidableEq, Repr

/-- Modelled from the spec: pg_typing key matching — a constant key matches
itself, a dynamic string-key pattern matches any string key. -/
def keyMatches (k : FieldKey) (name : String) : Bool :=
  match k with
  | .const s => s == name
  | .anyKey => true

/-- Modelled from the spec: `Schema.get_field` (pg_typing, not under src/) —
the first field in declaration order whose key spec matches the name. -/
def Schema.getField (s : Schema) (name : String) : Option PgField :=
  s.fields.find? (fun f => keyMatches f.key name)

def isConstFieldKey (s : Schema) (k : String) : Bool :=
  s.fields.any (fun f => f.key == FieldKey.const k)

/-- A symbolic class: its type name (also its serialization key, per
`Object.__init_subclass__` line 167), its schema, and the class-level
behavior flags declared on `pg.Object` (lines 131-142 of the source). -/
structure PgClass where
  name : String
  schema : Schema
  allowSymbolicAttribute : Bool
  allowSymbolicAssignment : Bool
  allowSymbolicMutation : Bool
  useSymbolicComparison : Bool
deriving DecidableEq, Repr

/-- Modelled from the spec: the process-scoped deserialization registry
(schema_utils.register_cls_for_deserialization, not under src/), a map from
serialization key to class. -/
def lookupClass (reg : List PgClass) (n : String) : Option PgClass :=
  reg.find? (fun c => c.name == n)

/-- The reserved type-identifier key `base._TYPE_NAME_KEY`. -/
def typeKey : String := "_type"

/-! ## The attribute store (pg_dict.Dict), modelled from the spec

The store realizes the field values of one object: one entry per constant
schema field, in schema declaration order, holding the provided value, the
field default, or the MISSING_VALUE marker; entries for dynamic (pattern)
keys follow in insertion order.  Values pass through the value-spec
conversion, which revives plain dicts carrying the reserved type key into
symbolic objects. -/

def storeConstPart (fields : List PgField) (fieldArgs : VEntries) : VEntries :=
  match fields with
  | [] => .nil
  | f :: rest =>
    match f.key with
    | .const k =>
        let v := match fieldArgs.lookup k with
          | some v => v
          | none => if f.hasDefault then f.defaultValue else Value.vMissing
        .cons k v (storeConstPart rest fieldArgs)
    | .anyKey => storeConstPart rest fieldArgs

def storeExtraPart (s : Schema) : VEntries → VEntries
  | .nil => .nil
  | .cons k v tl =>
      if isConstFieldKey s k then storeExtraPart s tl
      else if (s.getField k).isSome then .cons k v (storeExtraPart s tl)
      else storeExtraPart s tl

/-- Modelled from the spec: arranging already-converted field arguments into
the canonical attribute store of pg_dict.Dict (not under src/). -/
def mkStoreE (s : Schema) (fieldArgs : VEntries) : VEntries :=
  (storeConstPart s.fields fieldArgs).append (storeExtraPart s fieldArgs)

/-! ## Revival of serialized values

Modelled from the spec: the reconstruction interface accepts plain nested
mappings optionally carrying the reserved type-identifier key; value-spec
application during store construction turns such a mapping back into an
instance of the registered class (module-level symbolic.from_json and
pg_typing conversion, not under src/). -/

mutual
def reviveValue (reg : List PgClass) : Value → Value
  | .vNone => .vNone
  | .vBool b => .vBool b
  | .vInt i => .vInt i
  | .vStr s => .vStr s
  | .vList xs => .vList (reviveList reg xs)
  | .vDict es =>
      let es2 := reviveEntries reg es
      match es2.lookup typeKey with
      | some (.vStr n) =>
        match lookupClass reg n with
        | some cls => .vObj n (mkStoreE cls.schema (es2.removeKey typeKey))
        | none => .vDict es2
      | _ => .vDict es2
  | .vObj n attrs => .vObj n attrs
  | .vCallable i => .vCallable i
  | .vMissing => .vMissing

def reviveList (reg : List PgClass) : VList → VList
  | .nil => .nil
  | .cons v tl => .cons (reviveValue reg v) (reviveList reg tl)

def reviveEntries (reg : List PgClass) : VEntries → VEntries
  | .nil => .nil
  | .cons k v tl => .cons k (reviveValue reg v) (reviveEntries reg tl)
end

/-- Modelled from the spec: building the backing attribute store from the
resolved constructor arguments — value-spec conversion (revival) followed by
canonical arrangement. -/
def mkStore (reg : List PgClass) (s : Schema) (fieldArgs : List (String × Value)) :
    VEntries :=
  mkStoreE s (reviveEntries reg (VEntries.ofList fieldArgs))

/-! ## The symbolic object instance -/

/-- A symbolic object: its class, its attribute store, and the per-instance
flags `Object.__init__` establishes.  `parentId` models the weak parent
back-reference (reference identity of parents is compared by id); `objId`
models the instance identity used by identity-based hashing. -/
structure Obj where
  cls : PgClass
  store : VEntries
  allowPartial : Bool
  sealed : Bool
  accessorWritable : Bool
  parentId : Option Nat
  objId : Nat
deriving DecidableEq, Repr

inductive InitError where
  | unexpectedKeywords (keys : List String)
  | takesNoArguments
  | tooManyPositional (expected given : Nat)
  | multipleValues (key : String) (v1 v2 : Value)
  | missingRequired (keys : List String)
deriving DecidableEq, Repr

/-- The keyword keys that do not resolve against the class's field set
(`schema.resolve(list(kwargs.keys()))` unmatched keys, source lines
319-326). -/
def unresolvedKeys (s : Schema) (kwargs : List (String × Value)) : List String :=
  (kwargs.map Prod.fst).filter fun k => (s.getField k).isNone

/-- Positional-argument binding of `Object.__init__`, source lines 328-352:
no positional argument is legal for a field-less class; a trailing `*name`
entry of `init_arg_list` collects all positional arguments past the named
ones into the variadic field as an ordered list; otherwise more positional
arguments than `init_arg_list` entries is an error, and argument i binds to
`init_arg_list[i]`. -/
def bindPositional (cls : PgClass) (args : List Value) :
    Except InitError (List (String × Value)) :=
  if args.isEmpty then .ok []
  else if cls.schema.fields.isEmpty then .error .takesNoArguments
  else
    let names := cls.schema.initArgList
    match names.getLast? with
    | some lastName =>
        if startsWithChar lastName '*' then
          let varargName := dropFirstChar lastName
          let numNamed := names.length - 1
          .ok ((varargName, Value.vList (VList.ofList (args.drop numNamed)))
               :: names.zip (args.take numNamed))
        else if names.length < args.length then
          .error (.tooManyPositional names.length args.length)
        else .ok (names.zip args)
    | none => .error (.tooManyPositional 0 args.length)

/-- Keyword merging of `Object.__init__`, source lines 354-360: a keyword
whose field already received a value fails naming both provided values. -/
def mergeKwargs (fieldArgs : List (String × Value)) (kwargs : List (String × Value)) :
    Except InitError (List (String × Value)) :=
  match kwargs with
  | [] => .ok fieldArgs
  | (k, v) :: rest =>
    match lookupArg fieldArgs k with
    | some v0 => .error (.multipleValues k v0 v)
    | none => mergeKwargs (fieldArgs ++ [(k, v)]) rest

/-- The missing-required-argument keys of `Object.__init__`, source lines
362-375: every field without a default whose key is a constant string and
which received no argument. -/
def missingFieldKeys (fields : List PgField) (fieldArgs : List (String × Value)) :
    List String :=
  fields.filterMap fun f =>
    match f.key with
    | .const k =>
        if !f.hasDefault && (lookupArg fieldArgs k).isNone then some k else none
    | .anyKey => none

def missingArgNames (s : Schema) (fieldArgs : List (String × Value)) : List String :=
  missingFieldKeys s.fields fieldArgs

def mkObject (reg : List PgClass) (cls : PgClass)
    (fieldArgs : List (String × Value)) (allowPartial sealed : Bool) : Obj :=
  { cls := cls
    store := mkStore reg cls.schema fieldArgs
    allowPartial := allowPartial
    sealed := sealed
    accessorWritable := cls.allowSymbolicAssignment
    parentId := none
    objId := 0 }

/-- `Object.__init__`, source lines 273-388.  `sealedArg = none` defers the
seal state to `cls.allowSymbolicMutation`; the checks run in source order:
unexpected keywords, positional binding, keyword conflicts, then the missing
required arguments (skipped for partial construction, `base.accepts_partial`
modelled as the allowPartial flag). -/
def objectInit (reg : List PgClass) (cls : PgClass) (args : List Value)
    (kwargs : List (String × Value)) (allowPartial : Bool)
    (sealedArg : Option Bool) : Except InitError Obj :=
  let sealed := sealedArg.getD (!cls.allowSymbolicMutation)
  let unmatched := unresolvedKeys cls.schema kwargs
  if unmatched = [] then
    match bindPositional cls args with
    | .error e => .error e
    | .ok posArgs =>
      match mergeKwargs posArgs kwargs with
      | .error e => .error e
      | .ok fieldArgs =>
        let missing := if allowPartial then [] else missingArgNames cls.schema fieldArgs
        if missing = [] then .ok (mkObject reg cls fieldArgs allowPartial sealed)
        else .error (.missingRequired missing)
  else .error (.unexpectedKeywords unmatched)

/-- `Object.from_json`, source lines 224-271: delegates the mapping of field
names to values to the constructor as keyword arguments. -/
def Object.fromJson (reg : List PgClass) (cls : PgClass)
    (jsonValue : List (String × Value)) (allowPartial : Bool) :
    Except InitError Obj :=
  objectInit reg cls [] jsonValue allowPartial none

/-- `Object.partial`, source lines 219-222 (the name `partial` is a Lean
keyword): `cls(*args, allow_partial=True, **kwargs)`. -/
def Object.mkPartial (reg : List PgClass) (cls : PgClass) (args : List Value)
    (kwargs : List (String × Value)) : Except InitError Obj :=
  objectInit reg cls args kwargs true none

/-! ## Serialization -/

mutual
/-- To-JSON conversion of a value: a symbolic object becomes a plain mapping
carrying the reserved type-identifier entry first and one entry per field
(`Object.sym_jsonify`, source lines 627-631, recursing through the store's
`to_json`); callables and the MISSING_VALUE marker are not serializable. -/
def valueToJson : Value → Option Value
  | .vNone => some .vNone
  | .vBool b => some (.vBool b)
  | .vInt i => some (.vInt i)
  | .vStr s => some (.vStr s)
  | .vList xs =>
      match vlistToJson xs with
      | some ys => some (.vList ys)
      | none => none
  | .vDict es =>
      match entriesToJson es with
      | some fs => some (.vDict fs)
      | none => none
  | .vObj n attrs =>
      match entriesToJson attrs with
      | some fs => some (.vDict (.cons typeKey (.vStr n) fs))
      | none => none
  | .vCallable _ => none
  | .vMissing => none

def vlistToJson : VList → Option VList
  | .nil => some .nil
  | .cons v tl =>
      match valueToJson v, vlistToJson tl with
      | some jv, some jtl => some (.cons jv jtl)
      | _, _ => none

def entriesToJson : VEntries → Option VEntries
  | .nil => some .nil
  | .cons k v tl =>
      match valueToJson v, entriesToJson tl with
      | some jv, some jtl => some (.cons k jv jtl)
      | _, _ => none
end

/-- `Object.sym_jsonify`, source lines 627-631: the merge of the reserved
type-identifier entry with the attribute store's JSON form. -/
def symJsonify (o : Obj) : Option Value :=
  valueToJson (.vObj o.cls.name o.store)

/-- Modelled from the spec: the module-level reconstruction interface
(symbolic.from_json, not under src/) on a mapping carrying the reserved
type-identifier key — pops the type key, resolves the registered class, and
delegates to the class-level factory `Object.from_json`.  `none` when the
value is not such a mapping or the class is unknown. -/
def reconstruct (reg : List PgClass) (j : Value) : Option (Except InitError Obj) :=
  match j with
  | .vDict es =>
    match es.lookup typeKey with
    | some (.vStr n) =>
      match lookupClass reg n with
      | some cls => some (Object.fromJson reg cls ((es.removeKey typeKey).toList) false)
      | none => none
    | _ => none
  | _ => none

/-! ## Mutation, sealing, equality, hashing, and the smaller accessors -/

inductive WriteError where
  | setattrSealed (name : String)
  | setattrNotWritable (clsName : String)
  | rebindSealed (clsName : String)
deriving DecidableEq, Repr

/-- Modelled from the spec: `base.treats_as_sealed` (not under src/) — the
object's sealed flag (the `pg.seal` context-manager override is outside this
model). -/
def treatsAsSealed (o : Obj) : Bool := o.sealed

/-- Modelled from the spec: `base.writtable_via_accessors` (not under src/) —
the accessor-writable flag, independent of seal. -/
def writableViaAccessors (o : Obj) : Bool := o.accessorWritable

/-- The outcome of `Object.__setattr__`: the name is handled as a regular
Python attribute, or the symbolic write is denied, or the store is written. -/
inductive AttrSetOutcome where
  | regular
  | denied (e : WriteError)
  | stored (o : Obj)
deriving DecidableEq, Repr

/-- `Object.__setattr__`, source lines 567-587: private names, undeclared
names, and classes without symbolic attributes fall through to regular
attribute semantics; then a sealed object denies the write, then a class
that disallows symbolic assignment denies it, and only then the store is
written. -/
def setAttr (o : Obj) (name : String) (value : Value) : AttrSetOutcome :=
  if !o.cls.allowSymbolicAttribute || (o.cls.schema.getField name).isNone
      || startsWithChar name '_' then
    .regular
  else if treatsAsSealed o then .denied (.setattrSealed name)
  else if !writableViaAccessors o then .denied (.setattrNotWritable o.cls.name)
  else .stored { o with store := o.store.setKey name value }

/-- Modelled from the spec: the attribute store's bulk rebind (pg_dict.Dict,
not under src/) applied after `Object._sym_rebind`'s own seal check — here a
direct keyed update per pair (paths beyond plain keys are outside this
model). -/
def applyUpdates (es : VEntries) (pvs : List (String × Value)) : VEntries :=
  pvs.foldl (fun acc kv => acc.setKey kv.1 kv.2) es

/-- `Object._sym_rebind`, source lines 505-512: rebinding a sealed object
raises a write-permission error; otherwise the store rebind is delegated. -/
def symRebind (o : Obj) (pvs : List (String × Value)) : Except WriteError Obj :=
  if treatsAsSealed o then .error (.rebindSealed o.cls.name)
  else .ok { o with store := applyUpdates o.store pvs }

/-- `Object.seal`, source lines 539-543 (the store's own seal flag follows
the object's in this model). -/
def Object.seal (o : Obj) (sealed : Bool) : Obj := { o with sealed := sealed }

/-- `Object.sym_eq`, source lines 477-481: reference identity (modelled as
structural identity of the instance record), or same concrete class and
structurally equal attribute stores. -/
def symEq (a b : Obj) : Bool := a == b || (a.cls == b.cls && a.store == b.store)

/-- `Object.__eq__`, source lines 598-612: symbolic equality when the class
uses symbolic comparison, else the base identity comparison (modelled as
structural identity of the instance record). -/
def Object.eqOp (a b : Obj) : Bool :=
  if a.cls.useSymbolicComparison then symEq a b else a == b

mutual
/-- Modelled from the spec: `base.sym_hash` (not under src/) — a structural
hash of values; the particular mixing is unspecified, only congruence
matters. -/
def symHashV : Value → Nat
  | .vNone => 0
  | .vBool b => if b then 1 else 2
  | .vInt i => 3 + 2 * i.natAbs + (if i < 0 then 1 else 0)
  | .vStr s => 5 + 31 * s.hash.toNat
  | .vList xs => 7 + 31 * symHashL xs
  | .vDict es => 11 + 31 * symHashE es
  | .vObj n attrs => 13 + 31 * (n.hash.toNat + 31 * symHashE attrs)
  | .vCallable i => 17 + 31 * i
  | .vMissing => 19

def symHashL : VList → Nat
  | .nil => 23
  | .cons v tl => 29 + symHashV v + 31 * symHashL tl

def symHashE : VEntries → Nat
  | .nil => 37
  | .cons k v tl => 41 + k.hash.toNat + 31 * (symHashV v + 31 * symHashE tl)
end

/-- `Object.sym_hash`, source lines 489-491: the hash of the pair of the
class identity and the structural hash of the attribute store. -/
def symHash (o : Obj) : Nat := o.cls.name.hash.toNat + 31 * symHashE o.store

/-- `Object.__hash__`, source lines 621-625: the symbolic hash when the
class uses symbolic comparison, else the base identity hash (modelled by
the instance id). -/
def Object.hashOp (o : Obj) : Nat :=
  if o.cls.useSymbolicComparison then symHash o else o.objId

/-- The key argument of `Object.sym_hasattr` (`Union[str, int]`). -/
inductive SymKey where
  | str (s : String)
  | int (i : Int)
deriving DecidableEq, Repr

/-- `Object.sym_hasattr`, source lines 451-457: the reserved name
`_sym_attributes` raises a ValueError (the subclass skipped
`super().__init__`); otherwise True exactly for string keys that do not
start with an underscore and are present in the store. -/
def symHasattr (o : Obj) (key : SymKey) : Except String Bool :=
  match key with
  | .str s =>
      if s = "_sym_attributes" then
        .error (o.cls.name ++ ".__init__ should call `super().__init__`.")
      else .ok (!(startsWithChar s '_') && o.store.hasKey s)
  | .int _ => .ok false

/-- `Object.sym_setparent`, source lines 493-498: the parent reference is
updated (base.Symbolic.sym_setparent, modelled from the spec as updating the
weak reference only), and the on-parent-change hook fires, with the old and
new parents, exactly when the new parent is not reference-identical
(same id) to the old one.  The second component is the fired hook's
arguments, `none` when no hook fired. -/
def symSetparent (o : Obj) (parent : Option Nat) :
    Obj × Option (Option Nat × Option Nat) :=
  let oldParent := o.parentId
  let o2 := { o with parentId := parent }
  if oldParent ≠ parent then (o2, some (oldParent, parent)) else (o2, none)

/-- `Object._sym_missing`, source lines 525-527, with the store's
`sym_missing` modelled from the spec (pg_dict.Dict, not under src/): the
keys whose stored value is the MISSING_VALUE marker. -/
def storeMissingKeys : VEntries → List String
  | .nil => []
  | .cons k v tl =>
      if v == Value.vMissing then k :: storeMissingKeys tl else storeMissingKeys tl

def symMissing (o : Obj) : List String := storeMissingKeys o.store

/-! ## Schema construction and inheritance

Modelled from the spec: `Object.__init_subclass__` (source lines 144-173)
delegates to pg_typing.create_schema and schema_utils (not under src/),
which merge the base classes' schemas (bases in declaration order, each
base's own field order) with the class's directly declared fields: a
same-keyed declared field overrides the inherited one in place, and the
remaining declared fields are appended. -/

def inheritedFields (baseSchemas : List Schema) : List PgField :=
  (baseSchemas.map Schema.fields).flatten

def overrideField (own : List PgField) (f : PgField) : PgField :=
  match own.find? (fun g => g.key == f.key) with
  | some g => g
  | none => f

/-- Modelled from the spec: the merged schema a class receives at
class-definition time. -/
def createSchema (baseSchemas : List Schema) (own : List PgField)
    (initArgList : List String) : Schema :=
  let inherited := inheritedFields baseSchemas
  { fields := inherited.map (overrideField own)
        ++ own.filter (fun g => !(inherited.any (fun f => f.key == g.key)))
    initArgList := initArgList }

/-! ## Canonical (round-trippable) values

A value is canonical when every callable-free, missing-free part of it is in
the form construction produces: plain dicts do not carry the reserved type
key, and a nested object's class is registered and its store is the fixed
point of the canonical store arrangement. -/

mutual
def canonicalV (reg : List PgClass) : Value → Bool
  | .vNone => true
  | .vBool _ => true
  | .vInt _ => true
  | .vStr _ => true
  | .vList xs => canonicalL reg xs
  | .vDict es => canonicalE reg es && !(es.hasKey typeKey)
  | .vObj n attrs =>
      canonicalE reg attrs && !(attrs.hasKey typeKey) &&
      (match lookupClass reg n with
       | some cls => mkStoreE cls.schema attrs == attrs
       | none => false)
  | .vCallable _ => false
  | .vMissing => false

def canonicalL (reg : List PgClass) : VList → Bool
  | .nil => true
  | .cons v tl => canonicalV reg v && canonicalL reg tl

def canonicalE (reg : List PgClass) : VEntries → Bool
  | .nil => true
  | .cons _ v tl => canonicalV reg v && canonicalE reg tl
end

/-- A fully-bound symbolic object in canonical form whose class is
registered under its own name, with distinct store keys. -/
def canonicalObj (reg : List PgClass) (o : Obj) : Bool :=
  canonicalV reg (.vObj o.cls.name o.store)
  && (lookupClass reg o.cls.name == some o.cls)
  && decide o.store.keys.Nodup

/-! ## Basic lemmas about stores and argument lists -/

/-- Induction along the spine of a `VEntries` store (the generic `induction`
tactic does not apply to mutual inductives). -/
theorem VEntries.spineInduction {motive : VEntries → Prop} (h0 : motive .nil)
    (h1 : ∀ k v tl, motive tl → motive (.cons k v tl)) : ∀ es, motive es
  | .nil => h0
  | .cons k v tl => h1 k v tl (VEntries.spineInduction h0 h1 tl)

@[simp] theorem VEntries.keys_nil : (VEntries.nil).keys = [] := rfl

@[simp] theorem VEntries.keys_cons (k : String) (v : Value) (tl : VEntries) :
    (VEntries.cons k v tl).keys = k :: tl.keys := rfl

@[simp] theorem VEntries.ofList_toList (es : VEntries) :
    VEntries.ofList es.toList = es := by
  induction es using VEntries.spineInduction with
  | h0 => rfl
  | h1 k v tl ih => simp [VEntries.toList, VEntries.ofList, ih]

@[simp] theorem VEntries.toList_append (a b : VEntries) :
    (a.append b).toList = a.toList ++ b.toList := by
  induction a using VEntries.spineInduction with
  | h0 => rfl
  | h1 k v tl ih => simp [VEntries.append, VEntries.toList, ih]

theorem VEntries.keys_append (a b : VEntries) :
    (a.append b).keys = a.keys ++ b.keys := by
  simp [VEntries.keys]

theorem lookupArg_toList (es : VEntries) (k : String) :
    lookupArg es.toList k = es.lookup k := by
  induction es using VEntries.spineInduction with
  | h0 => rfl
  | h1 k0 v tl ih =>
      by_cases h : k0 = k <;> simp [VEntries.toList, VEntries.lookup, lookupArg, h, ih]

theorem VEntries.lookup_isSome_iff (es : VEntries) (k : String) :
    (es.lookup k).isSome = true ↔ k ∈ es.keys := by
  induction es using VEntries.spineInduction with
  | h0 => simp [VEntries.lookup]
  | h1 k0 v tl ih =>
      by_cases h : k0 = k
      · subst h; simp [VEntries.lookup]
      · simp [VEntries.lookup, h, ih, Ne.symm h]

theorem lookupArg_isSome_iff (l : List (String × Value)) (k : String) :
    (lookupArg l k).isSome = true ↔ k ∈ l.map Prod.fst := by
  induction l with
  | nil => simp [lookupArg]
  | cons p tl ih =>
      obtain ⟨k0, v⟩ := p
      by_cases h : k0 = k
      · subst h; simp [lookupArg]
      · simp [lookupArg, h, ih, Ne.symm h]

theorem lookupArg_mem {l : List (String × Value)} {k : String} {v : Value}
    (h : lookupArg l k = some v) : (k, v) ∈ l := by
  induction l with
  | nil => simp [lookupArg] at h
  | cons p tl ih =>
      obtain ⟨k0, v0⟩ := p
      by_cases hk : k0 = k
      · subst hk
        simp [lookupArg] at h
        simp [h]
      · simp [lookupArg, hk] at h
        exact List.mem_cons_of_mem _ (ih h)

theorem lookupArg_append_left {l1 : List (String × Value)} {k : String} {v : Value}
    (l2 : List (String × Value)) (h : lookupArg l1 k = some v) :
    lookupArg (l1 ++ l2) k = some v := by
  induction l1 with
  | nil => simp [lookupArg] at h
  | cons p tl ih =>
      obtain ⟨k0, v0⟩ := p
      by_cases hk : k0 = k <;> simp [lookupArg, hk] at h ⊢ <;> simp_all

theorem lookupArg_append_right {l1 : List (String × Value)} {k : String}
    (l2 : List (String × Value)) (h : lookupArg l1 k = none) :
    lookupArg (l1 ++ l2) k = lookupArg l2 k := by
  induction l1 with
  | nil => rfl
  | cons p tl ih =>
      obtain ⟨k0, v0⟩ := p
      by_cases hk : k0 = k
      · simp [lookupArg, hk] at h
      · simp only [List.cons_append, lookupArg, hk, if_false] at h ⊢
        exact ih h

theorem reviveEntries_keys (reg : List PgClass) (es : VEntries) :
    (reviveEntries reg es).keys = es.keys := by
  induction es using VEntries.spineInduction with
  | h0 => rfl
  | h1 k v tl ih =>
      simpa [reviveEntries] using ih

theorem reviveEntries_lookup (reg : List PgClass) (es : VEntries) (k : String) :
    (reviveEntries reg es).lookup k = (es.lookup k).map (reviveValue reg) := by
  induction es using VEntries.spineInduction with
  | h0 => rfl
  | h1 k0 v tl ih =>
      by_cases h : k0 = k <;> simp [reviveEntries, VEntries.lookup, h, ih]

theorem getField_isSome_of_const {s : Schema} {k : String}
    (h : ∃ f ∈ s.fields, f.key = FieldKey.const k) : (s.getField k).isSome = true := by
  obtain ⟨f, hf, hk⟩ := h
  exact List.find?_isSome.mpr ⟨f, hf, by simp [keyMatches, hk]⟩

def constKeys (fields : List PgField) : List String :=
  fields.filterMap fun f => match f.key with | .const s => some s | .anyKey => none

theorem storeConstPart_keys (fields : List PgField) (fa : VEntries) :
    (storeConstPart fields fa).keys = constKeys fields := by
  induction fields with
  | nil => rfl
  | cons f rest ih => cases hf : f.key <;> simp [storeConstPart, constKeys, hf, ih]

theorem mem_constKeys {fields : List PgField} {k : String} :
    k ∈ constKeys fields ↔ ∃ f ∈ fields, f.key = FieldKey.const k := by
  simp only [constKeys, List.mem_filterMap]
  constructor
  · rintro ⟨f, hf, hk⟩
    refine ⟨f, hf, ?_⟩
    cases hfk : f.key with
    | const s =>
        rw [hfk] at hk
        simp only [Option.some.injEq] at hk
        rw [hk]
    | anyKey => rw [hfk] at hk; simp at hk
  · rintro ⟨f, hf, hk⟩
    exact ⟨f, hf, by rw [hk]⟩

theorem storeExtraPart_keys_resolve (s : Schema) (es : VEntries) (k : String)
    (h : k ∈ (storeExtraPart s es).keys) : (s.getField k).isSome = true := by
  induction es using VEntries.spineInduction with
  | h0 => simp [storeExtraPart] at h
  | h1 k0 v tl ih =>
      by_cases h1 : isConstFieldKey s k0
      · exact ih (by simpa [storeExtraPart, h1] using h)
      · by_cases h2 : (s.getField k0).isSome
        · simp only [storeExtraPart, h1, h2, Bool.false_eq_true, if_false, if_true,
            VEntries.keys_cons, List.mem_cons] at h
          rcases h with rfl | h3
          · exact h2
          · exact ih h3
        · exact ih (by simpa [storeExtraPart, h1, h2] using h)

theorem mkStoreE_keys_resolve (s : Schema) (es : VEntries) (k : String)
    (h : k ∈ (mkStoreE s es).keys) : (s.getField k).isSome = true := by
  rw [mkStoreE, VEntries.keys_append] at h
  rcases List.mem_append.mp h with h1 | h2
  · rw [storeConstPart_keys] at h1
    exact getField_isSome_of_const (mem_constKeys.mp h1)
  · exact storeExtraPart_keys_resolve s es k h2

theorem mkStoreE_const_mem (s : Schema) (es : VEntries) (k : String)
    (h : ∃ f ∈ s.fields, f.key = FieldKey.const k) : k ∈ (mkStoreE s es).keys := by
  rw [mkStoreE, VEntries.keys_append]
  exact List.mem_append_left _ (by rw [storeConstPart_keys]; exact mem_constKeys.mpr h)

theorem mergeKwargs_ok (kwargs : List (String × Value)) :
    ∀ acc, (∀ k ∈ kwargs.map Prod.fst, lookupArg acc k = none) →
    (kwargs.map Prod.fst).Nodup →
    mergeKwargs acc kwargs = .ok (acc ++ kwargs) := by
  induction kwargs with
  | nil => intro acc _ _; simp [mergeKwargs]
  | cons p rest ih =>
      intro acc hnone hnd
      obtain ⟨k0, v0⟩ := p
      have h0 : lookupArg acc k0 = none := hnone k0 (by simp)
      rw [List.map_cons, List.nodup_cons] at hnd
      have hrec : ∀ k ∈ rest.map Prod.fst, lookupArg (acc ++ [(k0, v0)]) k = none := by
        intro k hk
        have hne : k ≠ k0 := fun h => hnd.1 (h ▸ hk)
        rw [lookupArg_append_right _ (hnone k (List.mem_cons_of_mem _ hk))]
        simp [lookupArg, hne, Ne.symm hne]
      calc mergeKwargs acc ((k0, v0) :: rest)
      _ = mergeKwargs (acc ++ [(k0, v0)]) rest := by simp [mergeKwargs, h0]
      _ = .ok ((acc ++ [(k0, v0)]) ++ rest) := ih _ hrec hnd.2
      _ = .ok (acc ++ (k0, v0) :: rest) := by simp

/-! ## Canonical values are stable under revival and round-trip through JSON -/

theorem lookup_eq_none_of_hasKey_false {es : VEntries} {k : String}
    (h : es.hasKey k = false) : es.lookup k = none := by
  cases hcase : es.lookup k with
  | none => rfl
  | some v => rw [VEntries.hasKey, hcase] at h; simp at h

mutual
theorem reviveValue_canonical (reg : List PgClass) :
    ∀ v, canonicalV reg v = true → reviveValue reg v = v
  | .vNone, _ => rfl
  | .vBool _, _ => rfl
  | .vInt _, _ => rfl
  | .vStr _, _ => rfl
  | .vList xs, h => by
      have hx : canonicalL reg xs = true := by simpa [canonicalV] using h
      rw [reviveValue, reviveList_canonical reg xs hx]
  | .vDict es, h => by
      have h1 : canonicalE reg es = true ∧ es.hasKey typeKey = false := by
        simpa [canonicalV] using h
      have h2 : reviveEntries reg es = es := reviveEntries_canonical reg es h1.1
      have h3 : es.lookup typeKey = none := lookup_eq_none_of_hasKey_false h1.2
      simp only [reviveValue, h2, h3]
  | .vObj _ _, _ => rfl
  | .vCallable _, h => by simp [canonicalV] at h
  | .vMissing, h => by simp [canonicalV] at h

theorem reviveList_canonical (reg : List PgClass) :
    ∀ xs, canonicalL reg xs = true → reviveList reg xs = xs
  | .nil, _ => rfl
  | .cons v tl, h => by
      have h1 : canonicalV reg v = true ∧ canonicalL reg tl = true := by
        simpa [canonicalL] using h
      rw [reviveList, reviveValue_canonical reg v h1.1, reviveList_canonical reg tl h1.2]

theorem reviveEntries_canonical (reg : List PgClass) :
    ∀ es, canonicalE reg es = true → reviveEntries reg es = es
  | .nil, _ => rfl
  | .cons k v tl, h => by
      have h1 : canonicalV reg v = true ∧ canonicalE reg tl = true := by
        simpa [canonicalE] using h
      rw [reviveEntries, reviveValue_canonical reg v h1.1,
        reviveEntries_canonical reg tl h1.2]
end

mutual
theorem toJson_revive (reg : List PgClass) :
    ∀ v, canonicalV reg v = true →
      ∃ j, valueToJson v = some j ∧ reviveValue reg j = v
  | .vNone, _ => ⟨.vNone, rfl, rfl⟩
  | .vBool b, _ => ⟨.vBool b, rfl, rfl⟩
  | .vInt i, _ => ⟨.vInt i, rfl, rfl⟩
  | .vStr s, _ => ⟨.vStr s, rfl, rfl⟩
  | .vList xs, h => by
      have hx : canonicalL reg xs = true := by simpa [canonicalV] using h
      obtain ⟨js, hj, hr⟩ := toJson_revive_list reg xs hx
      exact ⟨.vList js, by rw [valueToJson, hj], by rw [reviveValue, hr]⟩
  | .vDict es, h => by
      have h1 : canonicalE reg es = true ∧ es.hasKey typeKey = false := by
        simpa [canonicalV] using h
      obtain ⟨fs, hj, hr⟩ := toJson_revive_entries reg es h1.1
      refine ⟨.vDict fs, by rw [valueToJson, hj], ?_⟩
      have h3 : es.lookup typeKey = none := lookup_eq_none_of_hasKey_false h1.2
      simp only [reviveValue, hr, h3]
  | .vObj n attrs, h => by
      have h1 : canonicalE reg attrs = true := by
        have := h
        simp only [canonicalV, Bool.and_eq_true] at this
        exact this.1.1
      have h4 : ∃ cls, lookupClass reg n = some cls
          ∧ mkStoreE cls.schema attrs = attrs := by
        have := h
        simp only [canonicalV, Bool.and_eq_true] at this
        have h5 := this.2
        cases hcls : lookupClass reg n with
        | none => rw [hcls] at h5; simp at h5
        | some cls =>
            rw [hcls] at h5
            exact ⟨cls, rfl, by simpa using h5⟩
      obtain ⟨fs, hj, hr⟩ := toJson_revive_entries reg attrs h1
      obtain ⟨cls, hcls, hfix⟩ := h4
      refine ⟨.vDict (.cons typeKey (.vStr n) fs), by rw [valueToJson, hj], ?_⟩
      have hrev : reviveEntries reg (.cons typeKey (.vStr n) fs)
          = .cons typeKey (.vStr n) attrs := by
        rw [reviveEntries, hr]
        rfl
      have hlk : (VEntries.cons typeKey (Value.vStr n) attrs).lookup typeKey
          = some (Value.vStr n) := by
        simp [VEntries.lookup]
      have hrm : (VEntries.cons typeKey (Value.vStr n) attrs).removeKey typeKey
          = attrs := by
        simp [VEntries.removeKey]
      simp only [reviveValue, hrev, hlk, hcls, hrm, hfix]
  | .vCallable _, h => by simp [canonicalV] at h
  | .vMissing, h => by simp [canonicalV] at h

theorem toJson_revive_list (reg : List PgClass) :
    ∀ xs, canonicalL reg xs = true →
      ∃ js, vlistToJson xs = some js ∧ reviveList reg js = xs
  | .nil, _ => ⟨.nil, rfl, rfl⟩
  | .cons v tl, h => by
      have h1 : canonicalV reg v = true ∧ canonicalL reg tl = true := by
        simpa [canonicalL] using h
      obtain ⟨jv, hjv, hrv⟩ := toJson_revive reg v h1.1
      obtain ⟨jtl, hjtl, hrtl⟩ := toJson_revive_list reg tl h1.2
      exact ⟨.cons jv jtl, by rw [vlistToJson, hjv, hjtl],
        by rw [reviveList, hrv, hrtl]⟩

theorem toJson_revive_entries (reg : List PgClass) :
    ∀ es, canonicalE reg es = true →
      ∃ fs, entriesToJson es = some fs ∧ reviveEntries reg fs = es
  | .nil, _ => ⟨.nil, rfl, rfl⟩
  | .cons k v tl, h => by
      have h1 : canonicalV reg v = true ∧ canonicalE reg tl = true := by
        simpa [canonicalE] using h
      obtain ⟨jv, hjv, hrv⟩ := toJson_revive reg v h1.1
      obtain ⟨jtl, hjtl, hrtl⟩ := toJson_revive_entries reg tl h1.2
      exact ⟨.cons k jv jtl, by rw [entriesToJson, hjv, hjtl],
        by rw [reviveEntries, hrv, hrtl]⟩
end

/-! ## Reconstruction of a canonical object -/

theorem objectInit_of_canonical (reg : List PgClass) (cls : PgClass)
    (store fs : VEntries)
    (hfix : mkStoreE cls.schema store = store)
    (hnd : store.keys.Nodup)
    (hrev : reviveEntries reg fs = store) :
    objectInit reg cls [] fs.toList false none
      = .ok (mkObject reg cls fs.toList false (!cls.allowSymbolicMutation))
    ∧ mkStore reg cls.schema fs.toList = store := by
  have fkeys : fs.keys = store.keys := by rw [← hrev, reviveEntries_keys]
  have hresolve : ∀ k ∈ store.keys, (cls.schema.getField k).isSome = true := by
    intro k hk
    exact mkStoreE_keys_resolve cls.schema store k (by rw [hfix]; exact hk)
  have hU : unresolvedKeys cls.schema fs.toList = [] := by
    apply List.filter_eq_nil_iff.mpr
    intro k hk
    have hk2 : k ∈ store.keys := by
      rw [← fkeys]
      exact hk
    simp [Option.isNone_iff_eq_none, Option.isSome_iff_ne_none.mp (hresolve k hk2)]
  have hbind : bindPositional cls [] = .ok [] := by simp [bindPositional]
  have hmerge : mergeKwargs [] fs.toList = .ok fs.toList := by
    have hnd2 : (fs.toList.map Prod.fst).Nodup := by
      show fs.keys.Nodup
      rw [fkeys]
      exact hnd
    simpa using mergeKwargs_ok fs.toList [] (fun k _ => rfl) hnd2
  have hmiss : missingArgNames cls.schema fs.toList = [] := by
    rw [missingArgNames, missingFieldKeys]
    apply List.filterMap_eq_nil_iff.mpr
    intro f hf
    cases hfk : f.key with
    | const k =>
        have hmem : k ∈ store.keys := by
          rw [← hfix]
          exact mkStoreE_const_mem cls.schema store k ⟨f, hf, hfk⟩
        have hsome : (lookupArg fs.toList k).isSome = true := by
          rw [lookupArg_toList, VEntries.lookup_isSome_iff, fkeys]
          exact hmem
        simp [Option.isNone_iff_eq_none, Option.isSome_iff_ne_none.mp hsome]
    | anyKey => simp
  have hstore : mkStore reg cls.schema fs.toList = store := by
    rw [mkStore, VEntries.ofList_toList, hrev, hfix]
  refine ⟨?_, hstore⟩
  simp only [objectInit, hU, hbind, hmerge, hmiss, Option.getD_none, if_true,
    Bool.false_eq_true, if_false, reduceIte]

/-! ## Claim theorems -/

/-- C1: for every symbolic object O of a class whose fields all permit
round-tripping (O is canonical: no non-serializable callables, no missing
values, class registered), reconstructing from O's serialized plain nested
mapping yields an object structurally equal to O; the class-level factory
`from_json` applied to a mapping of field names to values produces exactly
the instance built from the same keys as keyword arguments, even though
`sym_jsonify` adds the reserved type-identifier entry to the mapping it
produces. -/
theorem c1_serialization_roundtrip (reg : List PgClass) (o : Obj)
    (hc : canonicalObj reg o = true) :
    (∃ fs, symJsonify o = some (.vDict (.cons typeKey (.vStr o.cls.name) fs)))
    ∧ (∃ j o2, symJsonify o = some j
        ∧ reconstruct reg j = some (.ok o2)
        ∧ symEq o2 o = true
        ∧ o2.cls = o.cls ∧ o2.store = o.store)
    ∧ (∀ cls jsonValue ap,
        Object.fromJson reg cls jsonValue ap = objectInit reg cls [] jsonValue ap none) := by
  simp only [canonicalObj, Bool.and_eq_true, beq_iff_eq, decide_eq_true_eq] at hc
  obtain ⟨⟨hcv, hreg⟩, hnd⟩ := hc
  have hco := hcv
  simp only [canonicalV, Bool.and_eq_true] at hco
  have hcanonE : canonicalE reg o.store = true := hco.1.1
  have hfixB := hco.2
  rw [hreg] at hfixB
  have hfix : mkStoreE o.cls.schema o.store = o.store := by simpa using hfixB
  obtain ⟨fs, hj, hrev⟩ := toJson_revive_entries reg o.store hcanonE
  have hjson : symJsonify o
      = some (.vDict (.cons typeKey (.vStr o.cls.name) fs)) := by
    simp only [symJsonify, valueToJson, hj]
  obtain ⟨hinit, hstore⟩ := objectInit_of_canonical reg o.cls o.store fs hfix hnd hrev
  refine ⟨⟨fs, hjson⟩, ?_, fun cls jsonValue ap => rfl⟩
  have hlk : (VEntries.cons typeKey (Value.vStr o.cls.name) fs).lookup typeKey
      = some (Value.vStr o.cls.name) := by
    simp [VEntries.lookup]
  have hrm : (VEntries.cons typeKey (Value.vStr o.cls.name) fs).removeKey typeKey
      = fs := by
    simp [VEntries.removeKey]
  refine ⟨.vDict (.cons typeKey (.vStr o.cls.name) fs),
    mkObject reg o.cls fs.toList false (!o.cls.allowSymbolicMutation),
    hjson, ?_, ?_, rfl, hstore⟩
  · simp only [reconstruct, hlk, hreg, hrm, Object.fromJson, hinit]
  · simp only [symEq, Bool.or_eq_true, Bool.and_eq_true, beq_iff_eq]
    exact Or.inr ⟨rfl, hstore⟩

/-! ## Concrete example classes shared by the witnesses -/

def pointSchema : Schema :=
  { fields := [ { key := .const "x", hasDefault := true, defaultValue := .vInt 0 },
                { key := .const "y", hasDefault := true, defaultValue := .vInt 0 } ]
    initArgList := ["x", "y"] }

def pointClass : PgClass :=
  { name := "Point", schema := pointSchema,
    allowSymbolicAttribute := true, allowSymbolicAssignment := false,
    allowSymbolicMutation := true, useSymbolicComparison := true }

def lineSchema : Schema :=
  { fields := [ { key := .const "start", hasDefault := false, defaultValue := .vNone },
                { key := .const "stop", hasDefault := false, defaultValue := .vNone } ]
    initArgList := ["start", "stop"] }

def lineClass : PgClass :=
  { name := "Line", schema := lineSchema,
    allowSymbolicAttribute := true, allowSymbolicAssignment := false,
    allowSymbolicMutation := true, useSymbolicComparison := true }

def exampleRegistry : List PgClass := [pointClass, lineClass]

/-- The object `Point(x=1, y=2)`. -/
def pointObj : Obj :=
  { cls := pointClass
    store := .cons "x" (.vInt 1) (.cons "y" (.vInt 2) .nil)
    allowPartial := false
    sealed := false
    accessorWritable := false
    parentId := none
    objId := 0 }

/-- C1 witness: the concrete round trip of `Point(x=1, y=2)`. -/
theorem c1_serialization_roundtrip_witness :
    canonicalObj exampleRegistry pointObj = true
    ∧ ((∃ fs, symJsonify pointObj
          = some (.vDict (.cons typeKey (.vStr pointObj.cls.name) fs)))
      ∧ (∃ j o2, symJsonify pointObj = some j
          ∧ reconstruct exampleRegistry j = some (.ok o2)
          ∧ symEq o2 pointObj = true
          ∧ o2.cls = pointObj.cls ∧ o2.store = pointObj.store)
      ∧ (∀ cls jsonValue ap,
          Object.fromJson exampleRegistry cls jsonValue ap
            = objectInit exampleRegistry cls [] jsonValue ap none)) :=
  ⟨by decide, c1_serialization_roundtrip exampleRegistry pointObj (by decide)⟩

/-- C2: a sealed symbolic object refuses every mutating operation with a
write-permission error until unsealed — attribute-style assignment to a
schema-declared (public) field is denied, rebind is denied, no updated
store is ever produced, and unsealing re-enables rebind. -/
theorem c2_sealed_refuses_mutation (o : Obj) (name : String) (v : Value)
    (pvs : List (String × Value))
    (hsealed : treatsAsSealed o = true)
    (hattr : o.cls.allowSymbolicAttribute = true)
    (hfield : (o.cls.schema.getField name).isSome = true)
    (hpriv : startsWithChar name '_' = false) :
    setAttr o name v = .denied (.setattrSealed name)
    ∧ (∀ o2, setAttr o name v ≠ .stored o2)
    ∧ symRebind o pvs = .error (.rebindSealed o.cls.name)
    ∧ (∃ o2, symRebind (Object.seal o false) pvs = .ok o2) := by
  have hset : setAttr o name v = .denied (.setattrSealed name) := by
    simp [setAttr, hattr, hpriv, hsealed,
      Option.isNone_iff_eq_none, Option.isSome_iff_ne_none.mp hfield]
  refine ⟨hset, ?_, ?_, ?_⟩
  · intro o2 h
    rw [hset] at h
    cases h
  · simp [symRebind, hsealed]
  · refine ⟨{ o with sealed := false, store := applyUpdates o.store pvs }, ?_⟩
    simp [symRebind, treatsAsSealed, Object.seal]

/-- C2 witness: the sealed `Point(x=1, y=2)` denies both the attribute write
`p.x = 5` and `p.rebind(x=5)`. -/
theorem c2_sealed_refuses_mutation_witness :
    setAttr (Object.seal pointObj true) "x" (.vInt 5)
      = .denied (.setattrSealed "x")
    ∧ (∀ o2, setAttr (Object.seal pointObj true) "x" (.vInt 5) ≠ .stored o2)
    ∧ symRebind (Object.seal pointObj true) [("x", .vInt 5)]
      = .error (.rebindSealed "Point")
    ∧ (∃ o2, symRebind (Object.seal (Object.seal pointObj true) false)
        [("x", .vInt 5)] = .ok o2) :=
  c2_sealed_refuses_mutation (Object.seal pointObj true) "x" (.vInt 5)
    [("x", .vInt 5)] (by decide) (by decide) (by decide) (by decide)

/-- C4: every keyword argument that does not resolve against the class's
field set makes the constructor fail with an unexpected-keyword error
naming every unresolved key, and no object is produced. -/
theorem c4_unexpected_keywords (reg : List PgClass) (cls : PgClass)
    (args : List Value) (kwargs : List (String × Value))
    (allowPartial : Bool) (sealedArg : Option Bool)
    (h : unresolvedKeys cls.schema kwargs ≠ []) :
    objectInit reg cls args kwargs allowPartial sealedArg
      = .error (.unexpectedKeywords (unresolvedKeys cls.schema kwargs))
    ∧ (∀ k ∈ kwargs.map Prod.fst, cls.schema.getField k = none →
        k ∈ unresolvedKeys cls.schema kwargs) := by
  constructor
  · simp only [objectInit]
    rw [if_neg h]
  · intro k hk hnone
    simp [unresolvedKeys, List.mem_filter, hk, hnone]

/-- C4 witness: `Point(x=1, y=2, z=3)` fails naming `z`. -/
theorem c4_unexpected_keywords_witness :
    objectInit exampleRegistry pointClass []
        [("x", .vInt 1), ("y", .vInt 2), ("z", .vInt 3)] false none
      = .error (.unexpectedKeywords ["z"])
    ∧ (∀ k ∈ [("x", Value.vInt 1), ("y", Value.vInt 2), ("z", Value.vInt 3)].map
          Prod.fst,
        pointClass.schema.getField k = none →
        k ∈ unresolvedKeys pointClass.schema
          [("x", .vInt 1), ("y", .vInt 2), ("z", .vInt 3)]) :=
  c4_unexpected_keywords exampleRegistry pointClass []
    [("x", .vInt 1), ("y", .vInt 2), ("z", .vInt 3)] false none (by decide)

theorem ofList_lookup (fa : List (String × Value)) (k : String) :
    (VEntries.ofList fa).lookup k = lookupArg fa k := by
  induction fa with
  | nil => rfl
  | cons p tl ih =>
      obtain ⟨k0, v0⟩ := p
      by_cases h : k0 = k <;> simp [VEntries.ofList, VEntries.lookup, lookupArg, h, ih]

theorem reviveValue_eq_missing {reg : List PgClass} :
    ∀ {v : Value}, reviveValue reg v = Value.vMissing → v = Value.vMissing := by
  intro v h
  cases v with
  | vMissing => rfl
  | vDict es =>
      simp only [reviveValue] at h
      split at h
      · split at h <;> cases h
      · cases h
  | vNone => cases h
  | vBool b => simp only [reviveValue] at h; cases h
  | vInt i => simp only [reviveValue] at h; cases h
  | vStr t => simp only [reviveValue] at h; cases h
  | vList xs => simp only [reviveValue] at h; cases h
  | vObj n attrs => simp only [reviveValue] at h; cases h
  | vCallable i => simp only [reviveValue] at h; cases h

theorem reviveEntries_toList_ne_missing (reg : List PgClass)
    (fa : List (String × Value)) (hv : ∀ p ∈ fa, p.2 ≠ Value.vMissing) :
    ∀ p ∈ (reviveEntries reg (VEntries.ofList fa)).toList, p.2 ≠ Value.vMissing := by
  induction fa with
  | nil => intro p hp; simp [VEntries.ofList, reviveEntries, VEntries.toList] at hp
  | cons q tl ih =>
      obtain ⟨k0, v0⟩ := q
      intro p hp
      simp only [VEntries.ofList, reviveEntries, VEntries.toList, List.mem_cons] at hp
      rcases hp with rfl | hp2
      · intro hmiss
        exact hv (k0, v0) (List.mem_cons_self _ _) (reviveValue_eq_missing hmiss)
      · exact ih (fun q hq => hv q (List.mem_cons_of_mem _ hq)) p hp2

theorem storeMissingKeys_append (a b : VEntries) :
    storeMissingKeys (a.append b) = storeMissingKeys a ++ storeMissingKeys b := by
  induction a using VEntries.spineInduction with
  | h0 => rfl
  | h1 k v tl ih =>
      by_cases h : v = Value.vMissing <;>
        simp [VEntries.append, storeMissingKeys, h, ih]

theorem storeMissingKeys_extra (s : Schema) (es : VEntries)
    (h : ∀ p ∈ es.toList, p.2 ≠ Value.vMissing) :
    storeMissingKeys (storeExtraPart s es) = [] := by
  induction es using VEntries.spineInduction with
  | h0 => rfl
  | h1 k v tl ih =>
      have hvne : v ≠ Value.vMissing := h (k, v) (by simp [VEntries.toList])
      have ih2 := ih (fun p hp => h p (by simp [VEntries.toList, hp]))
      by_cases h1 : isConstFieldKey s k
      · simp [storeExtraPart, h1, ih2]
      · by_cases h2 : (s.getField k).isSome <;>
          simp [storeExtraPart, h1, h2, storeMissingKeys, hvne, ih2]

theorem storeMissingKeys_constPart (reg : List PgClass) (fields : List PgField)
    (fa : List (String × Value))
    (hv : ∀ p ∈ fa, p.2 ≠ Value.vMissing)
    (hd : ∀ f ∈ fields, f.hasDefault = true → f.defaultValue ≠ Value.vMissing) :
    storeMissingKeys (storeConstPart fields (reviveEntries reg (VEntries.ofList fa)))
      = missingFieldKeys fields fa := by
  induction fields with
  | nil => rfl
  | cons f rest ih =>
      have ih2 := ih (fun g hg => hd g (List.mem_cons_of_mem _ hg))
      cases hfk : f.key with
      | anyKey => simp [storeConstPart, missingFieldKeys, hfk, ih2]
      | const k =>
          have hlook : (reviveEntries reg (VEntries.ofList fa)).lookup k
              = (lookupArg fa k).map (reviveValue reg) := by
            rw [reviveEntries_lookup, ofList_lookup]
          cases hla : lookupArg fa k with
          | some v =>
              have hvne : v ≠ Value.vMissing := hv (k, v) (lookupArg_mem hla)
              have hrne : reviveValue reg v ≠ Value.vMissing :=
                fun hh => hvne (reviveValue_eq_missing hh)
              simp [storeConstPart, missingFieldKeys, hfk, hlook, hla,
                storeMissingKeys, hrne, ih2]
          | none =>
              cases hdf : f.hasDefault with
              | true =>
                  have hdne : f.defaultValue ≠ Value.vMissing :=
                    hd f (List.mem_cons_self _ _) hdf
                  simp [storeConstPart, missingFieldKeys, hfk, hlook, hla, hdf,
                    storeMissingKeys, hdne, ih2]
              | false =>
                  simp [storeConstPart, missingFieldKeys, hfk, hlook, hla, hdf,
                    storeMissingKeys, ih2]

/-- C3: when required fields (constant key, no default) are unbound,
plain construction fails with an error listing every missing required
field key (not just the first), while construction via the partial class
method succeeds with the same arguments and reports exactly those fields
through the missing-values query. -/
theorem c3_missing_required_fields (reg : List PgClass) (cls : PgClass)
    (args : List Value) (kwargs pos fa : List (String × Value))
    (hU : unresolvedKeys cls.schema kwargs = [])
    (hbind : bindPositional cls args = .ok pos)
    (hmerge : mergeKwargs pos kwargs = .ok fa)
    (hmiss : missingArgNames cls.schema fa ≠ [])
    (hv : ∀ p ∈ fa, p.2 ≠ Value.vMissing)
    (hd : ∀ f ∈ cls.schema.fields, f.hasDefault = true →
        f.defaultValue ≠ Value.vMissing) :
    objectInit reg cls args kwargs false none
      = .error (.missingRequired (missingArgNames cls.schema fa))
    ∧ (∀ f ∈ cls.schema.fields, ∀ k, f.key = FieldKey.const k →
        f.hasDefault = false → lookupArg fa k = none →
        k ∈ missingArgNames cls.schema fa)
    ∧ (∃ o2, Object.mkPartial reg cls args kwargs = .ok o2
        ∧ symMissing o2 = missingArgNames cls.schema fa) := by
  refine ⟨?_, ?_, ?_⟩
  · simp only [objectInit, hU, hbind, hmerge]
    simp [hmiss]
  · intro f hf k hk hdf hla
    rw [missingArgNames, missingFieldKeys]
    apply List.mem_filterMap.mpr
    exact ⟨f, hf, by simp [hk, hdf, hla]⟩
  · refine ⟨mkObject reg cls fa true (!cls.allowSymbolicMutation), ?_, ?_⟩
    · simp only [Object.mkPartial, objectInit, hU, hbind, hmerge]
      simp
    · show storeMissingKeys (mkStore reg cls.schema fa) = _
      rw [mkStore, mkStoreE, storeMissingKeys_append,
        storeMissingKeys_constPart reg cls.schema.fields fa hv hd,
        storeMissingKeys_extra cls.schema _
          (reviveEntries_toList_ne_missing reg fa hv),
        List.append_nil, missingArgNames]

/-- C3 witness: `Line()` fails listing both `start` and `stop`;
`Line.partial()` succeeds and the missing-values query reports both. -/
theorem c3_missing_required_fields_witness :
    objectInit exampleRegistry lineClass [] [] false none
      = .error (.missingRequired (missingArgNames lineClass.schema []))
    ∧ (∀ f ∈ lineClass.schema.fields, ∀ k, f.key = FieldKey.const k →
        f.hasDefault = false → lookupArg [] k = none →
        k ∈ missingArgNames lineClass.schema [])
    ∧ (∃ o2, Object.mkPartial exampleRegistry lineClass [] [] = .ok o2
        ∧ symMissing o2 = missingArgNames lineClass.schema []) :=
  c3_missing_required_fields exampleRegistry lineClass [] [] [] []
    (by decide) rfl rfl (by decide)
    (by intro p hp; cases hp) (by decide)

theorem mergeKwargs_conflict (kwargs : List (String × Value)) :
    ∀ pos, (kwargs.map Prod.fst).Nodup →
    (∃ k, k ∈ kwargs.map Prod.fst ∧ (lookupArg pos k).isSome = true) →
    ∃ k v1 v2, mergeKwargs pos kwargs = .error (.multipleValues k v1 v2)
      ∧ lookupArg pos k = some v1 ∧ (k, v2) ∈ kwargs := by
  induction kwargs with
  | nil =>
      rintro pos _ ⟨k, hk, _⟩
      cases hk
  | cons p rest ih =>
      rintro pos hnd ⟨k, hk, hks⟩
      obtain ⟨k0, v0⟩ := p
      cases hla : lookupArg pos k0 with
      | some v1 =>
          exact ⟨k0, v1, v0, by simp [mergeKwargs, hla], hla, by simp⟩
      | none =>
          rw [List.map_cons, List.nodup_cons] at hnd
          have hkne : k ≠ k0 := by
            rintro rfl
            rw [hla] at hks
            simp at hks
          have hk2 : k ∈ rest.map Prod.fst := by
            rcases List.mem_cons.mp hk with h | h
            · exact absurd h hkne
            · exact h
          have hks2 : (lookupArg (pos ++ [(k0, v0)]) k).isSome = true := by
            cases hv : lookupArg pos k with
            | some w => rw [lookupArg_append_left _ hv]; rfl
            | none => rw [hv] at hks; simp at hks
          obtain ⟨k2, v1, v2, hm, hl, hmem⟩ :=
            ih (pos ++ [(k0, v0)]) hnd.2 ⟨k, hk2, hks2⟩
          have hk2ne : k2 ≠ k0 := by
            rintro rfl
            exact hnd.1 (List.mem_map.mpr ⟨(k2, v2), hmem, rfl⟩)
          have hlpos : lookupArg pos k2 = some v1 := by
            cases hp : lookupArg pos k2 with
            | some w => rw [lookupArg_append_left _ hp] at hl; exact hl
            | none =>
                rw [lookupArg_append_right _ hp] at hl
                simp [lookupArg, Ne.symm hk2ne] at hl
          exact ⟨k2, v1, v2, by simp [mergeKwargs, hla]; exact hm, hlpos,
            List.mem_cons_of_mem _ hmem⟩

/-- C5: positional arguments bind to fields in the order of the computed
constructor argument list; a trailing variadic entry collects all positional
arguments past the named ones into the variadic field as an ordered
sequence; without a variadic entry, excess positional arguments fail; a
field given both a positional and a keyword value fails with an error
naming both provided values. -/
theorem c5_positional_binding (cls : PgClass) (args : List Value)
    (pos kwargs : List (String × Value)) :
    (args ≠ [] → cls.schema.fields ≠ [] →
      ∀ lastName, cls.schema.initArgList.getLast? = some lastName →
        startsWithChar lastName '*' = false →
        args.length ≤ cls.schema.initArgList.length →
        bindPositional cls args = .ok (cls.schema.initArgList.zip args))
    ∧ (args ≠ [] → cls.schema.fields ≠ [] →
      ∀ lastName, cls.schema.initArgList.getLast? = some lastName →
        startsWithChar lastName '*' = true →
        bindPositional cls args = .ok
          ((dropFirstChar lastName,
            Value.vList (VList.ofList
              (args.drop (cls.schema.initArgList.length - 1))))
            :: cls.schema.initArgList.zip
                (args.take (cls.schema.initArgList.length - 1)))
        ∧ (∀ fa, bindPositional cls args = .ok fa →
            lookupArg fa (dropFirstChar lastName)
              = some (Value.vList (VList.ofList
                  (args.drop (cls.schema.initArgList.length - 1))))))
    ∧ (args ≠ [] → cls.schema.fields ≠ [] →
      cls.schema.initArgList.length < args.length →
      (∀ lastName, cls.schema.initArgList.getLast? = some lastName →
        startsWithChar lastName '*' = false) →
      bindPositional cls args = .error
        (.tooManyPositional cls.schema.initArgList.length args.length))
    ∧ ((kwargs.map Prod.fst).Nodup →
      (∃ k, k ∈ kwargs.map Prod.fst ∧ (lookupArg pos k).isSome = true) →
      ∃ k v1 v2, mergeKwargs pos kwargs = .error (.multipleValues k v1 v2)
        ∧ lookupArg pos k = some v1 ∧ (k, v2) ∈ kwargs) := by
  refine ⟨?_, ?_, ?_, fun hnd hex => mergeKwargs_conflict kwargs pos hnd hex⟩
  · intro ha hf lastName hlast hstar hlen
    have hae : args.isEmpty = false := by simpa [List.isEmpty_iff] using ha
    have hfe : cls.schema.fields.isEmpty = false := by
      simpa [List.isEmpty_iff] using hf
    simp only [bindPositional, hae, hfe, hlast, hstar, Bool.false_eq_true,
      if_false, Nat.not_lt.mpr hlen, reduceIte]
  · intro ha hf lastName hlast hstar
    have hae : args.isEmpty = false := by simpa [List.isEmpty_iff] using ha
    have hfe : cls.schema.fields.isEmpty = false := by
      simpa [List.isEmpty_iff] using hf
    have hbind : bindPositional cls args = .ok
        ((dropFirstChar lastName,
          Value.vList (VList.ofList
            (args.drop (cls.schema.initArgList.length - 1))))
          :: cls.schema.initArgList.zip
              (args.take (cls.schema.initArgList.length - 1))) := by
      simp only [bindPositional, hae, hfe, hlast, hstar, Bool.false_eq_true,
        if_false, reduceIte]
    refine ⟨hbind, fun fa hfa => ?_⟩
    rw [hbind] at hfa
    cases hfa
    simp [lookupArg]
  · intro ha hf hlen hstar
    have hae : args.isEmpty = false := by simpa [List.isEmpty_iff] using ha
    have hfe : cls.schema.fields.isEmpty = false := by
      simpa [List.isEmpty_iff] using hf
    cases hlast : cls.schema.initArgList.getLast? with
    | none =>
        have hnil : cls.schema.initArgList = [] := by
          cases hcase : cls.schema.initArgList with
          | nil => rfl
          | cons x xs => rw [hcase] at hlast; simp [List.getLast?] at hlast
        simp only [bindPositional, hae, hfe, Bool.false_eq_true,
          if_false, reduceIte, hnil, List.getLast?_nil, List.length_nil]
    | some lastName =>
        simp only [bindPositional, hae, hfe, hlast, hstar lastName hlast,
          Bool.false_eq_true, if_false, hlen, reduceIte]

/-- C5 witness: for a class with fields `a` and variadic `xs`
(`init_arg_list = [a, *xs]`), three positional arguments bind `a` and
collect the excess into `xs`; and a positional plus keyword value for `x`
on Point conflicts naming both values. -/
theorem c5_positional_binding_witness :
    ((["a", "*xs"].getLast? = some "*xs") ∧ startsWithChar "*xs" '*' = true)
    ∧ (∃ k v1 v2,
        mergeKwargs [("x", Value.vInt 1)] [("x", Value.vInt 5)]
          = .error (.multipleValues k v1 v2)
        ∧ lookupArg [("x", Value.vInt 1)] k = some v1
        ∧ (k, v2) ∈ [("x", Value.vInt 5)]) := by
  constructor
  · exact ⟨rfl, by decide⟩
  · exact (c5_positional_binding pointClass [Value.vInt 1]
      [("x", Value.vInt 1)] [("x", Value.vInt 5)]).2.2.2
      (by decide) ⟨"x", by decide, by decide⟩

/-- C6: a subclass schema that overrides zero inherited fields contains
every field of each base schema with identical specs, in the same relative
order — all base-class fields first, iterating bases in declaration order
with each base's own field order — followed by the newly declared fields
appended. -/
theorem c6_schema_inheritance (baseSchemas : List Schema) (own : List PgField)
    (il : List String)
    (h : ∀ g ∈ own, ∀ f ∈ inheritedFields baseSchemas, g.key ≠ f.key) :
    (createSchema baseSchemas own il).fields = inheritedFields baseSchemas ++ own
    ∧ (∀ s ∈ baseSchemas,
        s.fields.Sublist (createSchema baseSchemas own il).fields) := by
  have hmap : (inheritedFields baseSchemas).map (overrideField own)
      = inheritedFields baseSchemas := by
    have hid : ∀ f ∈ inheritedFields baseSchemas, overrideField own f = f := by
      intro f hf
      rw [overrideField, List.find?_eq_none.mpr]
      intro g hg
      simp only [beq_iff_eq]
      intro hk
      exact h g hg f hf (by rw [hk])
    rw [List.map_congr_left hid]
    simp
  have hfilter : own.filter
      (fun g => !((inheritedFields baseSchemas).any (fun f => f.key == g.key)))
      = own := by
    apply List.filter_eq_self.mpr
    intro g hg
    rw [Bool.not_eq_eq_eq_not, Bool.not_true, List.any_eq_false]
    intro f hf
    simp only [beq_iff_eq]
    intro hk
    exact h g hg f hf hk.symm
  have hfields : (createSchema baseSchemas own il).fields
      = inheritedFields baseSchemas ++ own := by
    simp only [createSchema]
    rw [hmap, hfilter]
  refine ⟨hfields, fun s hs => ?_⟩
  rw [hfields, inheritedFields]
  exact (List.sublist_flatten_of_mem
    (List.mem_map_of_mem Schema.fields hs)).trans
    (List.sublist_append_left _ _)

/-- C6 witness: a subclass of Point adding field `z` and overriding
nothing keeps the two Point fields first, in order, then `z`. -/
theorem c6_schema_inheritance_witness :
    (createSchema [pointSchema]
        [{ key := .const "z", hasDefault := true, defaultValue := .vBool false }]
        ["x", "y", "z"]).fields
      = inheritedFields [pointSchema]
        ++ [{ key := .const "z", hasDefault := true, defaultValue := .vBool false }]
    ∧ (∀ s ∈ [pointSchema],
        s.fields.Sublist (createSchema [pointSchema]
          [{ key := .const "z", hasDefault := true, defaultValue := .vBool false }]
          ["x", "y", "z"]).fields) :=
  c6_schema_inheritance [pointSchema]
    [{ key := .const "z", hasDefault := true, defaultValue := .vBool false }]
    ["x", "y", "z"] (by decide)

/-- C7: with symbolic comparison enabled, two symbolic objects are equal
exactly when they are reference-identical (modelled as record identity) or
have the same concrete class and structurally equal attribute stores;
differing concrete classes compare unequal. -/
theorem c7_symbolic_equality (a b : Obj) (h : a.cls.useSymbolicComparison = true) :
    (Object.eqOp a b = true ↔ (a = b ∨ (a.cls = b.cls ∧ a.store = b.store)))
    ∧ (a.cls ≠ b.cls → Object.eqOp a b = false) := by
  constructor
  · simp [Object.eqOp, h, symEq, Bool.or_eq_true, Bool.and_eq_true, beq_iff_eq]
  · intro hne
    have h1 : a ≠ b := fun hab => hne (congrArg Obj.cls hab)
    simp [Object.eqOp, h, symEq, h1, hne]

/-- C7 witness: `Point(1, 2)` equals a distinct but structurally equal
instance, and differs from a structurally different one. -/
theorem c7_symbolic_equality_witness :
    (Object.eqOp pointObj { pointObj with objId := 1 } = true
      ↔ (pointObj = { pointObj with objId := 1 }
        ∨ (pointObj.cls = ({ pointObj with objId := 1 } : Obj).cls
          ∧ pointObj.store = ({ pointObj with objId := 1 } : Obj).store)))
    ∧ (pointObj.cls ≠ ({ pointObj with objId := 1 } : Obj).cls →
        Object.eqOp pointObj { pointObj with objId := 1 } = false) :=
  c7_symbolic_equality pointObj { pointObj with objId := 1 } (by decide)

/-- C8: with symbolic comparison enabled, two objects of the same concrete
class with structurally equal attribute stores hash equally, the hash being
the combination of the class identity and the structural store hash; a
class that opts out falls back to identity-based hashing. -/
theorem c8_symbolic_hash (a b : Obj)
    (hu : a.cls.useSymbolicComparison = true)
    (hc : a.cls = b.cls) (hs : a.store = b.store) :
    Object.hashOp a = Object.hashOp b
    ∧ Object.hashOp a = a.cls.name.hash.toNat + 31 * symHashE a.store
    ∧ (∀ o : Obj, o.cls.useSymbolicComparison = false →
        Object.hashOp o = o.objId) := by
  have hub : b.cls.useSymbolicComparison = true := by rw [← hc]; exact hu
  refine ⟨?_, by simp [Object.hashOp, hu, symHash],
    fun o ho => by simp [Object.hashOp, ho]⟩
  simp [Object.hashOp, hu, hub, symHash, hc, hs]

/-- C8 witness: two distinct instances of `Point(1, 2)` hash equally. -/
theorem c8_symbolic_hash_witness :
    Object.hashOp pointObj = Object.hashOp { pointObj with objId := 1 }
    ∧ Object.hashOp pointObj
      = pointObj.cls.name.hash.toNat + 31 * symHashE pointObj.store
    ∧ (∀ o : Obj, o.cls.useSymbolicComparison = false →
        Object.hashOp o = o.objId) :=
  c8_symbolic_hash pointObj { pointObj with objId := 1 } (by decide) rfl rfl

/-- C9: `sym_hasattr` returns False for every key that is not a string or
that starts with an underscore, even when the store holds that key, except
that the key `_sym_attributes` raises a ValueError telling the subclass's
`__init__` to call `super().__init__`. -/
theorem c9_sym_hasattr (o : Obj) :
    (∀ i, symHasattr o (.int i) = .ok false)
    ∧ (∀ s, startsWithChar s '_' = true → s ≠ "_sym_attributes" →
        symHasattr o (.str s) = .ok false)
    ∧ symHasattr o (.str "_sym_attributes")
      = .error (o.cls.name ++ ".__init__ should call `super().__init__`.") := by
  refine ⟨fun i => rfl, fun s hs hne => ?_, by simp [symHasattr]⟩
  simp [symHasattr, hne, hs]

/-- C10: `sym_setparent` updates the parent reference, and fires the
on-parent-change hook with the old and new parents exactly when the new
parent is not identical to the old one; re-setting the same parent changes
nothing observable and fires no hook. -/
theorem c10_sym_setparent (o : Obj) (p : Option Nat) :
    ((symSetparent o p).1.parentId = p)
    ∧ ((symSetparent o p).2 ≠ none ↔ o.parentId ≠ p)
    ∧ (o.parentId ≠ p → (symSetparent o p).2 = some (o.parentId, p))
    ∧ (o.parentId = p → symSetparent o p = (o, none)) := by
  by_cases h : o.parentId = p
  · subst h
    refine ⟨by simp [symSetparent], by simp [symSetparent], by simp [symSetparent], fun _ => ?_⟩
    simp [symSetparent]
  · exact ⟨by simp [symSetparent, h], by simp [symSetparent, h],
      fun _ => by simp [symSetparent, h], fun hp => absurd hp h⟩
